import Mathlib

/-!
Verification of the cascade-reveal scheduler in `src/static/js/draw.js`.

The script runs once on the document-ready signal:

  document.addEventListener('DOMContentLoaded', () => {
    const cards = document.querySelectorAll('.draw-card');
    cards.forEach((card, index) => {
      setTimeout(() => {
        card.classList.add('revealed');
      }, index * 700);
    });
  });

Shallow embedding: a document is a list of elements; an element is its class
list (a DOM class attribute is an ordered token list; `classList.add` appends
the token only when absent).  An element reference is its position in the
document list.  `querySelectorAll('.draw-card')` is embedded as the ordered
list of positions of matching elements; the `forEach` scheduling pass turns
the snapshot into a list of deferred actions `(delay, target)` with
`delay = index * 700`; firing an action applies `classList.add('revealed')`
to the referenced element.
-/

namespace DrawJs

/-- A DOM element, reduced to the data the script touches: its class list. -/
structure Element where
  classes : List String
  deriving Repr, DecidableEq

/-- Embedding of `classList.add tok`: appends the token unless it is already
present (DOMTokenList semantics). -/
def classListAdd (classes : List String) (tok : String) : List String :=
  if tok ∈ classes then classes else classes ++ [tok]

/-- The selector `.draw-card`: an element matches iff its class list
contains `draw-card`. -/
def matchesCard (e : Element) : Bool :=
  decide ("draw-card" ∈ e.classes)

/-- The body of the deferred action: `card.classList.add('revealed')`. -/
def reveal (e : Element) : Element :=
  { e with classes := classListAdd e.classes "revealed" }

/-- Embedding of `document.querySelectorAll('.draw-card')`, as element
references: the positions of matching elements, in document order, starting
the numbering at `j`. -/
def matchedIndicesFrom : Nat → List Element → List Nat
  | _, [] => []
  | j, e :: rest =>
    if matchesCard e then j :: matchedIndicesFrom (j + 1) rest
    else matchedIndicesFrom (j + 1) rest

/-- The snapshot taken at the ready signal: positions of `.draw-card`
elements in document order. -/
def matchedIndices (doc : List Element) : List Nat :=
  matchedIndicesFrom 0 doc

/-- A deferred action registered with `setTimeout`: its delay in
milliseconds and the reference of the captured card. -/
structure Action where
  delay : Nat
  target : Nat
  deriving Repr, DecidableEq

/-- The `forEach` scheduling pass over the snapshot, carrying the running
`index`: the card at snapshot index `i` gets delay `i * 700`. -/
def scheduleFrom : Nat → List Nat → List Action
  | _, [] => []
  | i, j :: rest => ⟨i * 700, j⟩ :: scheduleFrom (i + 1) rest

/-- All deferred actions scheduled by the ready-signal handler. -/
def scheduledActions (doc : List Element) : List Action :=
  scheduleFrom 0 (matchedIndices doc)

/-- Firing one deferred action: `classList.add('revealed')` on the
captured element reference; any other element is untouched. -/
def fireAction (doc : List Element) (a : Action) : List Element :=
  match doc[a.target]? with
  | some e => doc.set a.target (reveal e)
  | none => doc

/-- Firing a list of deferred actions in order. -/
def fireAll (doc : List Element) (acts : List Action) : List Element :=
  acts.foldl fireAction doc

/-- The whole run: take the snapshot at the ready signal, schedule, and
let every timer fire. -/
def run (doc : List Element) : List Element :=
  fireAll doc (scheduledActions doc)

example : matchedIndices [⟨["x"]⟩, ⟨["draw-card"]⟩, ⟨["draw-card", "y"]⟩] = [1, 2] := by decide

example :
    scheduledActions [⟨["draw-card"]⟩, ⟨["x"]⟩, ⟨["draw-card"]⟩] =
      [⟨0, 0⟩, ⟨700, 2⟩] := by decide

example :
    run [⟨["draw-card"]⟩, ⟨["x"]⟩, ⟨["draw-card", "revealed"]⟩] =
      [⟨["draw-card", "revealed"]⟩, ⟨["x"]⟩, ⟨["draw-card", "revealed"]⟩] := by decide

/-! ### Class-list lemmas -/

theorem classListAdd_of_mem {cl : List String} {tok : String} (h : tok ∈ cl) :
    classListAdd cl tok = cl := by
  simp [classListAdd, h]

theorem mem_classListAdd_self (cl : List String) (tok : String) :
    tok ∈ classListAdd cl tok := by
  by_cases h : tok ∈ cl <;> simp [classListAdd, h]

theorem mem_classListAdd_of_mem {cl : List String} {c : String} (tok : String)
    (h : c ∈ cl) : c ∈ classListAdd cl tok := by
  by_cases htok : tok ∈ cl <;> simp [classListAdd, htok, h]

theorem reveal_reveal (e : Element) : reveal (reveal e) = reveal e := by
  simp only [reveal]
  congr 1
  exact classListAdd_of_mem (mem_classListAdd_self _ _)

theorem mem_reveal_self (e : Element) : "revealed" ∈ (reveal e).classes :=
  mem_classListAdd_self _ _

theorem reveal_of_mem {e : Element} (h : "revealed" ∈ e.classes) :
    reveal e = e := by
  simp only [reveal]
  cases e
  simp [classListAdd_of_mem h]

/-! ### Snapshot lemmas -/

theorem le_of_mem_matchedIndicesFrom :
    ∀ (doc : List Element) (j k : Nat), k ∈ matchedIndicesFrom j doc → j ≤ k := by
  intro doc
  induction doc with
  | nil => intro j k h; simp [matchedIndicesFrom] at h
  | cons e rest ih =>
    intro j k h
    simp only [matchedIndicesFrom] at h
    by_cases hm : matchesCard e
    · simp [hm] at h
      rcases h with h | h
      · omega
      · have := ih (j + 1) k h; omega
    · simp [hm] at h
      have := ih (j + 1) k h; omega

theorem mem_matchedIndicesFrom :
    ∀ (doc : List Element) (j k : Nat),
      k ∈ matchedIndicesFrom j doc ↔
        ∃ m e, doc[m]? = some e ∧ matchesCard e = true ∧ k = j + m := by
  intro doc
  induction doc with
  | nil =>
    intro j k
    simp [matchedIndicesFrom]
  | cons a rest ih =>
    intro j k
    constructor
    · intro h
      simp only [matchedIndicesFrom] at h
      by_cases hm : matchesCard a
      · simp [hm] at h
        rcases h with h | h
        · exact ⟨0, a, by simp, hm, by omega⟩
        · rcases (ih (j + 1) k).mp h with ⟨m, e, hget, hmatch, hk⟩
          exact ⟨m + 1, e, by simpa using hget, hmatch, by omega⟩
      · simp [hm] at h
        rcases (ih (j + 1) k).mp h with ⟨m, e, hget, hmatch, hk⟩
        exact ⟨m + 1, e, by simpa using hget, hmatch, by omega⟩
    · rintro ⟨m, e, hget, hmatch, hk⟩
      simp only [matchedIndicesFrom]
      cases m with
      | zero =>
        simp at hget
        subst hget
        simp [hmatch]
        omega
      | succ m =>
        simp at hget
        have hmem : k ∈ matchedIndicesFrom (j + 1) rest :=
          (ih (j + 1) k).mpr ⟨m, e, hget, hmatch, by omega⟩
        by_cases hm : matchesCard a <;> simp [hm, hmem]

theorem chain_matchedIndicesFrom :
    ∀ (doc : List Element) (j : Nat),
      List.Chain' (· < ·) (matchedIndicesFrom j doc) := by
  intro doc
  induction doc with
  | nil => intro j; simp [matchedIndicesFrom]
  | cons a rest ih =>
    intro j
    simp only [matchedIndicesFrom]
    by_cases hm : matchesCard a
    · simp only [hm, if_true]
      refine List.chain'_cons'.mpr ⟨?_, ih (j + 1)⟩
      intro b hb
      have hmem : b ∈ matchedIndicesFrom (j + 1) rest := by
        cases hh : matchedIndicesFrom (j + 1) rest with
        | nil => simp [hh] at hb
        | cons x xs =>
          simp [hh] at hb
          simp [hh, hb]
      have := le_of_mem_matchedIndicesFrom rest (j + 1) b hmem
      omega
    · simp only [hm, if_false]
      exact ih (j + 1)

theorem nodup_matchedIndices (doc : List Element) :
    (matchedIndices doc).Nodup := by
  have h := chain_matchedIndicesFrom doc 0
  have hp : (matchedIndicesFrom 0 doc).Pairwise (· < ·) :=
    List.chain'_iff_pairwise.mp h
  exact hp.imp (fun hab => Nat.ne_of_lt hab)

theorem length_matchedIndicesFrom :
    ∀ (doc : List Element) (j : Nat),
      (matchedIndicesFrom j doc).length = (doc.filter matchesCard).length := by
  intro doc
  induction doc with
  | nil => intro j; simp [matchedIndicesFrom]
  | cons a rest ih =>
    intro j
    simp only [matchedIndicesFrom, List.filter]
    by_cases hm : matchesCard a <;> simp [hm, ih (j + 1)]

theorem mem_matchedIndices_iff (doc : List Element) (j : Nat) :
    j ∈ matchedIndices doc ↔ ∃ e, doc[j]? = some e ∧ matchesCard e = true := by
  rw [matchedIndices, mem_matchedIndicesFrom]
  constructor
  · rintro ⟨m, e, hget, hmatch, hk⟩
    have : m = j := by omega
    subst this
    exact ⟨e, hget, hmatch⟩
  · rintro ⟨e, hget, hmatch⟩
    exact ⟨j, e, hget, hmatch, by omega⟩

/-! ### Scheduling lemmas -/

theorem length_scheduleFrom :
    ∀ (js : List Nat) (i : Nat), (scheduleFrom i js).length = js.length := by
  intro js
  induction js with
  | nil => intro i; simp [scheduleFrom]
  | cons j rest ih => intro i; simp [scheduleFrom, ih (i + 1)]

theorem getElem?_scheduleFrom :
    ∀ (js : List Nat) (i k : Nat),
      (scheduleFrom i js)[k]? = (js[k]?).map (fun j => ⟨(i + k) * 700, j⟩) := by
  intro js
  induction js with
  | nil => intro i k; simp [scheduleFrom]
  | cons j rest ih =>
    intro i k
    cases k with
    | zero => simp [scheduleFrom]
    | succ k =>
      simp only [scheduleFrom, List.getElem?_cons_succ, ih (i + 1) k]
      have : i + 1 + k = i + (k + 1) := by omega
      rw [this]

theorem map_target_scheduleFrom :
    ∀ (js : List Nat) (i : Nat), (scheduleFrom i js).map Action.target = js := by
  intro js
  induction js with
  | nil => intro i; simp [scheduleFrom]
  | cons j rest ih => intro i; simp [scheduleFrom, ih (i + 1)]

theorem map_target_scheduledActions (doc : List Element) :
    (scheduledActions doc).map Action.target = matchedIndices doc :=
  map_target_scheduleFrom _ 0

theorem length_scheduledActions (doc : List Element) :
    (scheduledActions doc).length = (doc.filter matchesCard).length := by
  rw [scheduledActions, length_scheduleFrom, matchedIndices,
    length_matchedIndicesFrom]

theorem getElem?_scheduledActions (doc : List Element) (k : Nat) :
    (scheduledActions doc)[k]? =
      ((matchedIndices doc)[k]?).map (fun j => ⟨k * 700, j⟩) := by
  rw [scheduledActions, getElem?_scheduleFrom]
  simp

theorem any_target_scheduledActions (doc : List Element) (j : Nat) :
    ((scheduledActions doc).any (fun a => a.target == j) = true) ↔
      j ∈ matchedIndices doc := by
  rw [List.any_eq_true]
  constructor
  · rintro ⟨a, ha, htgt⟩
    have : a.target = j := by simpa using htgt
    subst this
    rw [← map_target_scheduledActions doc]
    exact List.mem_map_of_mem _ ha
  · intro h
    rw [← map_target_scheduledActions doc] at h
    rcases List.mem_map.mp h with ⟨a, ha, rfl⟩
    exact ⟨a, ha, by simp⟩

theorem target_lt_of_mem_scheduledActions (doc : List Element) :
    ∀ a ∈ scheduledActions doc, a.target < doc.length := by
  intro a ha
  have hmem : a.target ∈ matchedIndices doc := by
    rw [← map_target_scheduledActions doc]
    exact List.mem_map_of_mem _ ha
  rcases (mem_matchedIndices_iff doc a.target).mp hmem with ⟨e, hget, _⟩
  exact (List.getElem?_eq_some_iff.mp hget).1

/-! ### Firing lemmas -/

theorem length_fireAction (doc : List Element) (a : Action) :
    (fireAction doc a).length = doc.length := by
  rcases h : doc[a.target]? with _ | e <;> simp [fireAction, h]

theorem getElem?_fireAction (doc : List Element) (a : Action) (j : Nat) :
    (fireAction doc a)[j]? =
      (doc[j]?).map (fun e => if a.target = j then reveal e else e) := by
  rcases h : doc[a.target]? with _ | e
  · have hlen : doc.length ≤ a.target := by
      by_contra hlt
      push_neg at hlt
      rw [List.getElem?_eq_getElem hlt] at h
      exact Option.noConfusion h
    by_cases hj : a.target = j
    · subst hj
      simp [fireAction, h]
    · simp [fireAction, h, hj]
  · by_cases hj : a.target = j
    · subst hj
      have hlt : a.target < doc.length := (List.getElem?_eq_some_iff.mp h).1
      simp [fireAction, h, List.getElem?_set_self hlt]
    · simp [fireAction, h, List.getElem?_set_ne hj, hj]

theorem getElem?_fireAll :
    ∀ (acts : List Action) (doc : List Element) (j : Nat),
      (fireAll doc acts)[j]? =
        (doc[j]?).map
          (fun e => if acts.any (fun a => a.target == j) then reveal e else e) := by
  intro acts
  induction acts with
  | nil =>
    intro doc j
    simp only [fireAll, List.foldl_nil, List.any_nil, if_false]
    cases doc[j]? <;> simp
  | cons a acts ih =>
    intro doc j
    have hstep : fireAll doc (a :: acts) = fireAll (fireAction doc a) acts := rfl
    rw [hstep, ih, getElem?_fireAction, Option.map_map]
    cases hget : doc[j]? with
    | none => simp
    | some e =>
      simp only [Option.map_some, Function.comp_apply, List.any_cons]
      by_cases hj : a.target = j
      · subst hj
        by_cases hany : acts.any (fun x => x.target == a.target) = true <;>
          simp [hany, reveal_reveal]
      · have hbeq : (a.target == j) = false := by simp [hj]
        simp [hbeq, hj]

theorem length_fireAll :
    ∀ (acts : List Action) (doc : List Element),
      (fireAll doc acts).length = doc.length := by
  intro acts
  induction acts with
  | nil => intro doc; rfl
  | cons a acts ih =>
    intro doc
    have hstep : fireAll doc (a :: acts) = fireAll (fireAction doc a) acts := rfl
    rw [hstep, ih, length_fireAction]

theorem length_run (doc : List Element) : (run doc).length = doc.length :=
  length_fireAll _ _

theorem fireAction_append (doc extra : List Element) (a : Action)
    (h : a.target < doc.length) :
    fireAction (doc ++ extra) a = fireAction doc a ++ extra := by
  have hget : (doc ++ extra)[a.target]? = doc[a.target]? :=
    List.getElem?_append_left h
  rcases he : doc[a.target]? with _ | e
  · rw [he] at hget
    have : doc.length ≤ a.target := by
      by_contra hlt
      push_neg at hlt
      rw [List.getElem?_eq_getElem hlt] at he
      exact Option.noConfusion he
    omega
  · rw [he] at hget
    simp [fireAction, hget, he, List.set_append_left _ _ h]

theorem fireAll_append :
    ∀ (acts : List Action) (doc extra : List Element),
      (∀ a ∈ acts, a.target < doc.length) →
        fireAll (doc ++ extra) acts = fireAll doc acts ++ extra := by
  intro acts
  induction acts with
  | nil => intro doc extra _; rfl
  | cons a acts ih =>
    intro doc extra hbound
    have ha : a.target < doc.length := hbound a (List.mem_cons_self a acts)
    have hstep : fireAll (doc ++ extra) (a :: acts) =
        fireAll (fireAction (doc ++ extra) a) acts := rfl
    rw [hstep, fireAction_append doc extra a ha,
      ih (fireAction doc a) extra]
    · rfl
    · intro b hb
      rw [length_fireAction]
      exact hbound b (List.mem_cons_of_mem a hb)

/-! ### Derived facts used by several claims -/

theorem delay_of_getElem? (doc : List Element) (i : Nat) (a : Action)
    (h : (scheduledActions doc)[i]? = some a) : a.delay = 700 * i := by
  rw [getElem?_scheduledActions] at h
  rcases hm : (matchedIndices doc)[i]? with _ | j
  · rw [hm] at h
    exact Option.noConfusion h
  · rw [hm] at h
    have h2 : some (Action.mk (i * 700) j) = some a := h
    have : a = ⟨i * 700, j⟩ := (Option.some_inj.mp h2).symm
    subst this
    exact Nat.mul_comm i 700

theorem getElem?_run (doc : List Element) (j : Nat) :
    (run doc)[j]? =
      (doc[j]?).map
        (fun e =>
          if (scheduledActions doc).any (fun a => a.target == j) then reveal e
          else e) :=
  getElem?_fireAll _ doc j

theorem run_fire_again (doc : List Element) :
    fireAll (run doc) (scheduledActions doc) = run doc := by
  apply List.ext_getElem?
  intro j
  rw [getElem?_fireAll, getElem?_run]
  cases hget : doc[j]? with
  | none => simp
  | some e =>
    by_cases hany : (scheduledActions doc).any (fun a => a.target == j) = true <;>
      simp [hany, reveal_reveal]

/-! ### The claims -/

/-- C1: at the ready signal the scheduler registers exactly N deferred
actions for a snapshot of N matched elements: the number of scheduled actions
equals the number of elements matching the card selector, the ordered list of
action targets is exactly the snapshot of matched element references, and that
snapshot has no duplicates — one action per matched element, no duplicates, no
omissions. -/
theorem C1_one_action_per_matched_element (doc : List Element) :
    (scheduledActions doc).length = (doc.filter matchesCard).length ∧
    (scheduledActions doc).map Action.target = matchedIndices doc ∧
    (matchedIndices doc).Nodup :=
  ⟨length_scheduledActions doc, map_target_scheduledActions doc,
    nodup_matchedIndices doc⟩

/-- C2: the deferred action at 0-based ordinal index i of the snapshot is
scheduled with a delay of exactly 700 * i milliseconds. -/
theorem C2_delay_is_700_times_index (doc : List Element) (i : Nat) (a : Action)
    (h : (scheduledActions doc)[i]? = some a) : a.delay = 700 * i :=
  delay_of_getElem? doc i a h

/-- C2 witness: a document with two cards schedules the second action with
delay 700 = 700 * 1. -/
theorem C2_delay_witness :
    (scheduledActions [⟨["draw-card"]⟩, ⟨["draw-card"]⟩])[1]? =
        some ⟨700, 1⟩ ∧
      Action.delay ⟨700, 1⟩ = 700 * 1 :=
  ⟨by decide,
    C2_delay_is_700_times_index [⟨["draw-card"]⟩, ⟨["draw-card"]⟩] 1 ⟨700, 1⟩
      (by decide)⟩

/-- C3: after every scheduled action has fired, each element matched in the
snapshot carries the revealed marker, keeps every class marker it had before,
and its class list is either unchanged or extended by exactly the revealed
token. -/
theorem C3_revealed_and_no_class_lost (doc : List Element) (j : Nat)
    (e : Element) (hget : doc[j]? = some e) (hm : matchesCard e = true) :
    ∃ e2, (run doc)[j]? = some e2 ∧
      "revealed" ∈ e2.classes ∧
      (∀ c ∈ e.classes, c ∈ e2.classes) ∧
      (e2.classes = e.classes ∨ e2.classes = e.classes ++ ["revealed"]) := by
  have hmem : j ∈ matchedIndices doc :=
    (mem_matchedIndices_iff doc j).mpr ⟨e, hget, hm⟩
  have hany : ((scheduledActions doc).any fun a => a.target == j) = true :=
    (any_target_scheduledActions doc j).mpr hmem
  refine ⟨reveal e, ?_, mem_reveal_self e,
    fun c hc => mem_classListAdd_of_mem _ hc, ?_⟩
  · rw [getElem?_run, hget]
    simp [hany]
  · by_cases hrev : "revealed" ∈ e.classes
    · left
      rw [reveal_of_mem hrev]
    · right
      simp [reveal, classListAdd, hrev]

/-- C3 witness: in a one-card document, the card ends up with classes
draw-card and revealed, having lost nothing. -/
theorem C3_revealed_witness :
    ∃ e2, (run [⟨["draw-card"]⟩])[0]? = some e2 ∧
      "revealed" ∈ e2.classes ∧
      (∀ c ∈ (Element.mk ["draw-card"]).classes, c ∈ e2.classes) ∧
      (e2.classes = (Element.mk ["draw-card"]).classes ∨
        e2.classes = (Element.mk ["draw-card"]).classes ++ ["revealed"]) :=
  C3_revealed_and_no_class_lost [⟨["draw-card"]⟩] 0 ⟨["draw-card"]⟩
    (by decide) (by decide)

/-- C4: the reveal action is idempotent — on an element whose class list
already contains the revealed token (exactly once, as a class set has no
duplicate tokens), firing the action leaves the class list unchanged and the
element carries exactly one revealed marker afterwards. -/
theorem C4_reveal_idempotent (e : Element)
    (h : "revealed" ∈ e.classes)
    (hwf : List.count "revealed" e.classes ≤ 1) :
    reveal e = e ∧ List.count "revealed" (reveal e).classes = 1 := by
  refine ⟨reveal_of_mem h, ?_⟩
  rw [reveal_of_mem h]
  have hpos : 0 < List.count "revealed" e.classes :=
    List.count_pos_iff.mpr h
  omega

/-- C4 witness: an already-revealed card is left unchanged with a single
revealed marker. -/
theorem C4_reveal_idempotent_witness :
    reveal ⟨["draw-card", "revealed"]⟩ = ⟨["draw-card", "revealed"]⟩ ∧
      List.count "revealed" (reveal ⟨["draw-card", "revealed"]⟩).classes = 1 :=
  C4_reveal_idempotent ⟨["draw-card", "revealed"]⟩ (by decide) (by decide)

/-- C5: delays are strictly increasing in the snapshot index — for i < j the
action scheduled for snapshot index i has a strictly smaller delay than the
one for index j, so under delay-ordered timer firing it never fires later. -/
theorem C5_delays_strictly_increasing (doc : List Element) (i j : Nat)
    (a b : Action)
    (ha : (scheduledActions doc)[i]? = some a)
    (hb : (scheduledActions doc)[j]? = some b)
    (hij : i < j) : a.delay < b.delay := by
  rw [delay_of_getElem? doc i a ha, delay_of_getElem? doc j b hb]
  omega

/-- C5 witness: with two cards, the first action's delay 0 is below the
second action's delay 700. -/
theorem C5_delays_witness :
    (scheduledActions [⟨["draw-card"]⟩, ⟨["draw-card"]⟩])[0]? =
        some ⟨0, 0⟩ ∧
      (scheduledActions [⟨["draw-card"]⟩, ⟨["draw-card"]⟩])[1]? =
        some ⟨700, 1⟩ ∧
      (0 : Nat) < 1 ∧
      Action.delay ⟨0, 0⟩ < Action.delay ⟨700, 1⟩ :=
  ⟨by decide, by decide, by decide,
    C5_delays_strictly_increasing [⟨["draw-card"]⟩, ⟨["draw-card"]⟩] 0 1
      ⟨0, 0⟩ ⟨700, 1⟩ (by decide) (by decide) (by decide)⟩

/-- C6: if the card selector matches no element, the scheduler registers no
action and the whole run leaves the document exactly as it was; the embedding
is a total function, so completion is normal and error-free. -/
theorem C6_empty_snapshot (doc : List Element)
    (h : doc.filter matchesCard = []) :
    scheduledActions doc = [] ∧ run doc = doc := by
  have hlen : (matchedIndices doc).length = 0 := by
    rw [matchedIndices, length_matchedIndicesFrom, h]
    rfl
  have hnil : matchedIndices doc = [] := List.length_eq_zero.mp hlen
  constructor
  · rw [scheduledActions, hnil]
    rfl
  · rw [run, scheduledActions, hnil]
    rfl

/-- C6 witness: a document with one non-card element yields zero actions and
is returned unchanged. -/
theorem C6_empty_snapshot_witness :
    scheduledActions [⟨["other"]⟩] = [] ∧ run [⟨["other"]⟩] = [⟨["other"]⟩] :=
  C6_empty_snapshot [⟨["other"]⟩] (by decide)

/-- C7: an element that does not match the card selector is never mutated —
after the whole run it is exactly the element it was — and no scheduled
action targets it, so it contributes nothing to the action count. -/
theorem C7_unmatched_untouched (doc : List Element) (j : Nat) (e : Element)
    (hget : doc[j]? = some e) (hm : matchesCard e = false) :
    (run doc)[j]? = some e ∧ ∀ a ∈ scheduledActions doc, a.target ≠ j := by
  have hnot : j ∉ matchedIndices doc := by
    intro hmem
    rcases (mem_matchedIndices_iff doc j).mp hmem with ⟨e2, hget2, hm2⟩
    rw [hget] at hget2
    rw [Option.some_inj.mp hget2] at hm
    rw [hm] at hm2
    exact Bool.noConfusion hm2
  have hany : ((scheduledActions doc).any fun a => a.target == j) = false := by
    cases hb : (scheduledActions doc).any fun a => a.target == j
    · rfl
    · exact absurd ((any_target_scheduledActions doc j).mp hb) hnot
  constructor
  · rw [getElem?_run, hget]
    simp [hany]
  · intro a ha heq
    apply hnot
    rw [← heq, ← map_target_scheduledActions doc]
    exact List.mem_map_of_mem _ ha

/-- C7 witness: in a document with a card and a non-card, the non-card at
position 1 is untouched and targeted by no action. -/
theorem C7_unmatched_witness :
    (run [⟨["draw-card"]⟩, ⟨["other"]⟩])[1]? = some ⟨["other"]⟩ ∧
      ∀ a ∈ scheduledActions [⟨["draw-card"]⟩, ⟨["other"]⟩], a.target ≠ 1 :=
  C7_unmatched_untouched [⟨["draw-card"]⟩, ⟨["other"]⟩] 1 ⟨["other"]⟩
    (by decide) (by decide)

/-- C8: per element, the revealed flag evolves monotonically under any single
deferred action: if the flag was already set the element is left completely
unchanged, and otherwise the element is either untouched or gets exactly the
revealed token appended — no action ever removes the marker. -/
theorem C8_revealed_flag_monotone (doc : List Element) (a : Action) (j : Nat)
    (e e2 : Element)
    (hget : doc[j]? = some e)
    (hget2 : (fireAction doc a)[j]? = some e2) :
    ("revealed" ∈ e.classes → e2 = e) ∧
    (e2 = e ∨ ("revealed" ∉ e.classes ∧
      e2.classes = e.classes ++ ["revealed"])) ∧
    ("revealed" ∈ e.classes → "revealed" ∈ e2.classes) := by
  rw [getElem?_fireAction, hget] at hget2
  have he2 : e2 = if a.target = j then reveal e else e :=
    (Option.some_inj.mp hget2).symm
  by_cases hj : a.target = j
  · rw [if_pos hj] at he2
    subst he2
    refine ⟨fun hrev => reveal_of_mem hrev, ?_, fun _ => mem_reveal_self e⟩
    by_cases hrev : "revealed" ∈ e.classes
    · left
      exact reveal_of_mem hrev
    · right
      refine ⟨hrev, ?_⟩
      simp [reveal, classListAdd, hrev]
  · rw [if_neg hj] at he2
    subst he2
    exact ⟨fun _ => rfl, Or.inl rfl, fun hrev => hrev⟩

/-- C8 witness: firing action (0,0) on a one-card document adds exactly the
revealed token to the card. -/
theorem C8_monotone_witness :
    ("revealed" ∈ (Element.mk ["draw-card"]).classes →
        (Element.mk ["draw-card", "revealed"]) = ⟨["draw-card"]⟩) ∧
    ((Element.mk ["draw-card", "revealed"]) = ⟨["draw-card"]⟩ ∨
      ("revealed" ∉ (Element.mk ["draw-card"]).classes ∧
        (Element.mk ["draw-card", "revealed"]).classes =
          (Element.mk ["draw-card"]).classes ++ ["revealed"])) ∧
    ("revealed" ∈ (Element.mk ["draw-card"]).classes →
      "revealed" ∈ (Element.mk ["draw-card", "revealed"]).classes) :=
  C8_revealed_flag_monotone [⟨["draw-card"]⟩] ⟨0, 0⟩ 0
    ⟨["draw-card"]⟩ ⟨["draw-card", "revealed"]⟩ (by decide) (by decide)

/-- C9: the snapshot is taken once at the ready signal: every scheduled
action targets a reference inside the snapshot-time document, and elements
appended to the document after the ready signal are neither scheduled nor
mutated when the already-scheduled actions fire. -/
theorem C9_snapshot_fixed_at_ready (doc extra : List Element) :
    (∀ a ∈ scheduledActions doc, a.target < doc.length) ∧
    fireAll (doc ++ extra) (scheduledActions doc) = run doc ++ extra :=
  ⟨target_lt_of_mem_scheduledActions doc,
    fireAll_append (scheduledActions doc) doc extra
      (target_lt_of_mem_scheduledActions doc)⟩

/-- C10: the scheduling pass over a snapshot with N matched elements performs
exactly N scheduling steps, every delay is at most 700 * (N - 1), the last
delay 700 * (N - 1) is attained, and once every scheduled action has fired
firing them again changes nothing — the system is quiescent. -/
theorem C10_terminates_and_quiesces (doc : List Element)
    (hpos : 0 < (doc.filter matchesCard).length) :
    (scheduledActions doc).length = (doc.filter matchesCard).length ∧
    (∀ a ∈ scheduledActions doc,
      a.delay ≤ 700 * ((doc.filter matchesCard).length - 1)) ∧
    (∃ a ∈ scheduledActions doc,
      a.delay = 700 * ((doc.filter matchesCard).length - 1)) ∧
    fireAll (run doc) (scheduledActions doc) = run doc := by
  have hlen : (scheduledActions doc).length = (doc.filter matchesCard).length :=
    length_scheduledActions doc
  refine ⟨hlen, ?_, ?_, run_fire_again doc⟩
  · intro a ha
    rcases List.mem_iff_getElem?.mp ha with ⟨k, hk⟩
    have hklt : k < (scheduledActions doc).length :=
      (List.getElem?_eq_some_iff.mp hk).1
    rw [delay_of_getElem? doc k a hk]
    have : k ≤ (doc.filter matchesCard).length - 1 := by omega
    exact Nat.mul_le_mul_left 700 this
  · have hlt : (doc.filter matchesCard).length - 1 <
        (scheduledActions doc).length := by omega
    have hk : (scheduledActions doc)[(doc.filter matchesCard).length - 1]? =
        some ((scheduledActions doc)[(doc.filter matchesCard).length - 1]) :=
      List.getElem?_eq_getElem hlt
    refine ⟨(scheduledActions doc)[(doc.filter matchesCard).length - 1], ?_, ?_⟩
    · exact List.getElem?_mem hk
    · exact delay_of_getElem? doc _ _ hk

/-- C10 witness: with two cards, two actions are scheduled, every delay is at
most 700, delay 700 is attained, and re-firing the actions is a no-op. -/
theorem C10_terminates_witness :
    (scheduledActions [⟨["draw-card"]⟩, ⟨["draw-card"]⟩]).length =
        ([⟨["draw-card"]⟩, ⟨["draw-card"]⟩].filter matchesCard).length ∧
      (∀ a ∈ scheduledActions [⟨["draw-card"]⟩, ⟨["draw-card"]⟩],
        a.delay ≤ 700 *
          (([⟨["draw-card"]⟩, ⟨["draw-card"]⟩].filter matchesCard).length - 1)) ∧
      (∃ a ∈ scheduledActions [⟨["draw-card"]⟩, ⟨["draw-card"]⟩],
        a.delay = 700 *
          (([⟨["draw-card"]⟩, ⟨["draw-card"]⟩].filter matchesCard).length - 1)) ∧
      fireAll (run [⟨["draw-card"]⟩, ⟨["draw-card"]⟩])
          (scheduledActions [⟨["draw-card"]⟩, ⟨["draw-card"]⟩]) =
        run [⟨["draw-card"]⟩, ⟨["draw-card"]⟩] :=
  C10_terminates_and_quiesces [⟨["draw-card"]⟩, ⟨["draw-card"]⟩] (by decide)

end DrawJs
